import Mathlib

/-!
Shallow embedding of `perf/run_buffered_ab.py`, an interleaved A/B benchmark
runner, together with proofs settling the specification claims.

Modelling conventions:
* Python strings are embedded as `List Char`; `str.split(",")`, `str.strip()`
  and `int(...)` are translated below (`splitComma`, `pyStrip`,
  `pyIntOfChars`).  Whitespace is modelled by `Char.isWhitespace`, covering
  the ASCII whitespace that this tool ever meets.
* Python floats in this program are only the literal `0.90` and values of
  `statistics.mean` on integer lists; within the program's operating range
  these float computations are exact, so they are modelled as exact
  rationals (`ℚ`).  `int(x)` truncates toward zero: `pyTrunc`.
* A raised exception is modelled as `Except.error`; `math.nan` (the
  "undefined" delta sentinel) is modelled as `Option.none`.
* Subprocess output is the input of `run_once`; a benchmark binary is
  modelled as a total collector function `Bool → Int → Nat → Int` mapping
  (is-binary-A, worker count, global invocation index) to the sample that
  the matching `run_once` call would extract.  The trace of spawned
  subprocesses is recorded explicitly so that "no subprocess is spawned"
  claims are statable.
-/

namespace BufferedAB

/-- The two exception kinds this program can raise: `valueError` for
`int(...)` failures and the explicit `raise ValueError("workers list is
empty")`, `runtimeError` for the `RuntimeError` raised by `run_once` when the
median pattern is missing. -/
inductive Err where
  | valueError : Err
  | runtimeError : Err
deriving DecidableEq

/-! ### Python string primitives -/

/-- Python `str.strip()`: drop whitespace from both ends. -/
def pyStrip (s : List Char) : List Char :=
  ((s.dropWhile Char.isWhitespace).reverse.dropWhile Char.isWhitespace).reverse

/-- Python `str.split(",")`: split on every comma; `"".split(",") == [""]`. -/
def splitComma : List Char → List (List Char)
  | [] => [[]]
  | c :: rest =>
    if c = ',' then [] :: splitComma rest
    else
      match splitComma rest with
      | [] => [[c]]
      | p :: ps => (c :: p) :: ps

/-- Numeric value of a list of decimal digits (most significant first). -/
def digitsVal (cs : List Char) : Nat :=
  cs.foldl (fun a c => 10 * a + (c.toNat - 48)) 0

/-- Continuation of a Python decimal digit string after its first digit:
digits with single underscores allowed between digits (`int("1_0")` is `10`,
`int("1__0")` and `int("1_")` raise). -/
def pyDigitsTail : List Char → Bool
  | [] => true
  | ['_'] => false
  | '_' :: c :: rest => c.isDigit && pyDigitsTail rest
  | c :: rest => c.isDigit && pyDigitsTail rest

/-- A valid Python decimal digit run: at least one digit, underscores only
between digits. -/
def pyDigitsOK : List Char → Bool
  | [] => false
  | c :: rest => c.isDigit && pyDigitsTail rest

/-- Python `int(s)` on an already-stripped string: optional single sign, then
a decimal digit run (underscore separators allowed).  Returns `none` where
Python raises `ValueError`. -/
def pyIntOfChars (s : List Char) : Option Int :=
  match s with
  | '+' :: rest =>
    if pyDigitsOK rest then some ((digitsVal (rest.filter (· ≠ '_')) : Nat) : Int) else none
  | '-' :: rest =>
    if pyDigitsOK rest then some (-((digitsVal (rest.filter (· ≠ '_')) : Nat) : Int)) else none
  | _ =>
    if pyDigitsOK s then some ((digitsVal (s.filter (· ≠ '_')) : Nat) : Int) else none

/-! ### `MEDIAN_RE` and `run_once` (lines 21, 24-31) -/

/-- Consume an exact literal prefix, returning the rest of the input. -/
def dropLit : List Char → List Char → Option (List Char)
  | [], s => some s
  | _ :: _, [] => none
  | c :: cs, d :: ds => if d = c then dropLit cs ds else none

/-- Consume a maximal nonempty run of characters satisfying `p` (the regex
`p+`; maximal munch is exact here because in `MEDIAN_RE` each `+` class is
disjoint from what follows). Returns the run and the rest. -/
def takeWhile1 (p : Char → Bool) (s : List Char) : Option (List Char × List Char) :=
  if (s.takeWhile p).isEmpty then none else some (s.takeWhile p, s.dropWhile p)

/-- Match `MEDIAN_RE`, i.e. the regex `median:\s+([0-9]+)\s+ops/sec`, anchored
at the start of `s`; returns the captured integer group. -/
def matchMedianAt (s : List Char) : Option Nat := do
  let s1 ← dropLit ("median:".data) s
  let (_, s2) ← takeWhile1 Char.isWhitespace s1
  let (ds, s3) ← takeWhile1 Char.isDigit s2
  let (_, s4) ← takeWhile1 Char.isWhitespace s3
  let _ ← dropLit ("ops/sec".data) s4
  pure (digitsVal ds)

/-- Python `re.search`: try the pattern at each successive start position,
leftmost match wins. -/
def searchMedian (s : List Char) : Option Nat :=
  match matchMedianAt s with
  | some k => some k
  | none =>
    match s with
    | [] => none
    | _ :: rest => searchMedian rest

/-- `run_once`, restricted to its parsing step: given the captured stdout of
the child process, extract the first `median: <int> ops/sec` occurrence, or
raise (`RuntimeError`) when there is none.  The subprocess launch itself is
the I/O boundary of the model. -/
def run_once (out : List Char) : Except Err Int :=
  match searchMedian out with
  | some k => .ok (k : Int)
  | none => .error Err.runtimeError

/-! ### `pct_delta` (lines 34-37) -/

/-- `pct_delta`: percentage delta, `math.nan` (modelled `none`) on a zero
baseline. -/
def pct_delta (newValue oldValue : Int) : Option ℚ :=
  if oldValue = 0 then none
  else some ((((newValue : ℚ) - (oldValue : ℚ)) / (oldValue : ℚ)) * 100)

/-! ### `percentile` and `summarize` (lines 40-53) -/

/-- Python `int(q)` for a rational: truncation toward zero. -/
def pyTrunc (q : ℚ) : Int := Int.tdiv q.num q.den

/-- Python `sorted` on integers (ascending, stable). -/
def sortInts (l : List Int) : List Int := List.insertionSort (· ≤ ·) l

/-- `percentile(values, p)`: `sorted(values)[max(0, min(len(values) - 1,
int(len(values) * p) - 1))]`.  `getD _ 0` models Python indexing; the index
is always in range for nonempty input, and `summarize` (the only caller)
raises before calling this on empty input. -/
def percentile (values : List Int) (p : ℚ) : Int :=
  (sortInts values).getD
    (max 0 (min ((values.length : Int) - 1)
      (pyTrunc ((values.length : ℚ) * p) - 1))).toNat 0

/-- The `Summary` record: p50/p90/min/max/mean of one sample series. -/
structure Summary where
  p50 : Int
  p90 : Int
  min : Int
  max : Int
  mean : Int
deriving DecidableEq

/-- `int(statistics.mean(l))`: exact arithmetic mean truncated toward zero. -/
def pymean (l : List Int) : Int := pyTrunc ((l.sum : ℚ) / (l.length : ℚ))

/-- `summarize(values)`; `none` models the `IndexError` Python raises on an
empty series (`s[len(s) // 2]` with `s == []`). -/
def summarize (values : List Int) : Option Summary :=
  if (sortInts values).isEmpty then none
  else some
    { p50 := (sortInts values).getD ((sortInts values).length / 2) 0
      p90 := percentile (sortInts values) (9/10)
      min := (sortInts values).getD 0 0
      max := (sortInts values).getD ((sortInts values).length - 1) 0
      mean := pymean (sortInts values) }

/-! ### `run_ab` (lines 56-68) -/

/-- State of `run_ab`'s loop: the two sample lists plus the trace of
`run_once` invocations, each recorded as (is-binary-A, worker count) in
temporal order. -/
structure ABRun where
  valsA : List Int
  valsB : List Int
  calls : List (Bool × Int)
deriving DecidableEq

/-- One round of `run_ab`: even rounds collect A then B, odd rounds B then A.
The collector receives the global invocation index (= current trace length),
so any deterministic pair of binaries is representable. -/
def runABStep (collect : Bool → Int → Nat → Int) (w : Int) (st : ABRun) (i : Nat) : ABRun :=
  if i % 2 = 0 then
    { valsA := st.valsA ++ [collect true w st.calls.length]
      valsB := st.valsB ++ [collect false w (st.calls.length + 1)]
      calls := st.calls ++ [(true, w), (false, w)] }
  else
    { valsA := st.valsA ++ [collect true w (st.calls.length + 1)]
      valsB := st.valsB ++ [collect false w st.calls.length]
      calls := st.calls ++ [(false, w), (true, w)] }

/-- The collection loop of `run_ab` (`for i in range(rounds)`). -/
def runABCore (collect : Bool → Int → Nat → Int) (w : Int) (rounds : Nat) : ABRun :=
  (List.range rounds).foldl (runABStep collect w) ⟨[], [], []⟩

/-- Result of `run_ab`: the two summaries (the returned dict) plus the
invocation trace. -/
structure ABResult where
  a : Option Summary
  b : Option Summary
  calls : List (Bool × Int)
deriving DecidableEq

/-- `run_ab(bin_a, bin_b, workers, rounds)`. -/
def run_ab (collect : Bool → Int → Nat → Int) (w : Int) (rounds : Nat) : ABResult :=
  { a := summarize (runABCore collect w rounds).valsA
    b := summarize (runABCore collect w rounds).valsB
    calls := (runABCore collect w rounds).calls }

/-! ### `parse_workers` (lines 71-80) -/

/-- The loop body of `parse_workers`: strip each piece, skip blanks, parse
the rest with `int(...)`. -/
def parseWorkersAux : List (List Char) → Except Err (List Int)
  | [] => .ok []
  | p :: rest =>
    if (pyStrip p).isEmpty then parseWorkersAux rest
    else
      match pyIntOfChars (pyStrip p) with
      | none => .error Err.valueError
      | some n =>
        match parseWorkersAux rest with
        | .error e => .error e
        | .ok l => .ok (n :: l)

/-- `parse_workers(spec)`: split on commas, parse the non-blank pieces,
raise `ValueError` when nothing remains. -/
def parse_workers (s : List Char) : Except Err (List Int) :=
  match parseWorkersAux (splitComma s) with
  | .error e => .error e
  | .ok [] => .error Err.valueError
  | .ok l => .ok l

/-- The value a piece of the workers string contributes to the result:
`none` for blank pieces (skipped), otherwise its `int` value. -/
def pieceVal (p : List Char) : Option Int :=
  if (pyStrip p).isEmpty then none else pyIntOfChars (pyStrip p)

/-! ### `main` (lines 83-121) -/

/-- The stderr message of the rounds check. -/
def roundsErrLine : String := "rounds must be >= 2"

/-- Stand-in for the Python traceback printed on an uncaught exception. -/
def uncaughtErrLine : String := "Traceback (most recent call last)"

/-- Observable outcome of `main`: process exit code, trace of spawned
subprocesses, stderr lines, and the per-worker report rows
(worker, summary A, summary B, delta p50, delta p90). -/
structure MainOut where
  exit : Int
  spawned : List (Bool × Int)
  errLines : List String
  rows : List (Int × Option Summary × Option Summary × Option ℚ × Option ℚ)

/-- Delta between one field of the two summaries, as printed in a report
row. -/
def deltaField (a b : Option Summary) (f : Summary → Int) : Option ℚ :=
  match a, b with
  | some x, some y => pct_delta (f x) (f y)
  | _, _ => none

/-- One row of the report plus the subprocess trace it generated. -/
def mainRow (collect : Bool → Int → Nat → Int) (w : Int) (rounds : Nat) :
    (Int × Option Summary × Option Summary × Option ℚ × Option ℚ) × List (Bool × Int) :=
  ((w, (run_ab collect w rounds).a, (run_ab collect w rounds).b,
    deltaField (run_ab collect w rounds).a (run_ab collect w rounds).b Summary.p50,
    deltaField (run_ab collect w rounds).a (run_ab collect w rounds).b Summary.p90),
   (run_ab collect w rounds).calls)

/-- `main`, with the argparse values `--rounds` and `--workers` as inputs and
the benchmark binaries abstracted into `collect`.  Exit code 2 for
`rounds < 2`, exit code 1 for the uncaught `ValueError` of `parse_workers`,
0 otherwise. -/
def main (roundsArg : Int) (workersSpec : List Char)
    (collect : Bool → Int → Nat → Int) : MainOut :=
  if roundsArg < 2 then ⟨2, [], [roundsErrLine], []⟩
  else
    match parse_workers workersSpec with
    | .error _ => ⟨1, [], [uncaughtErrLine], []⟩
    | .ok workers =>
      ⟨0, (workers.map (fun w => (mainRow collect w roundsArg.toNat).2)).flatten,
       [], workers.map (fun w => (mainRow collect w roundsArg.toNat).1)⟩

/-- A trivial deterministic collector, used to instantiate universally
quantified theorems at a concrete input. -/
def zeroCollector : Bool → Int → Nat → Int := fun _ _ _ => 0

/-! ### Specification-side definitions (for refinement claims) -/

/-- Modelled from the spec, for comparison with the code: the p90 sorted
position `clamp(floor(n * 0.90) - 1, 0, n - 1)` of section 4.3. -/
def specP90Index (n : Nat) : Nat :=
  (max 0 (min ((n : Int) - 1) (⌊(n : ℚ) * (9/10)⌋ - 1))).toNat

/-! ### Closed forms of the `run_ab` loop -/

/-- The binary invoked first in round `i` (`true` = binary A). -/
def roundFirst (w : Int) (i : Nat) : Bool × Int :=
  if i % 2 = 0 then (true, w) else (false, w)

/-- The binary invoked second in round `i`. -/
def roundSecond (w : Int) (i : Nat) : Bool × Int :=
  if i % 2 = 0 then (false, w) else (true, w)

/-- The two invocations of round `i`, in temporal order. -/
def roundCalls (w : Int) (i : Nat) : List (Bool × Int) :=
  [roundFirst w i, roundSecond w i]

/-- The full invocation trace of `run_ab` over `rounds` rounds. -/
def callsList (w : Int) (rounds : Nat) : List (Bool × Int) :=
  (List.range rounds).flatMap (roundCalls w)

/-- Global invocation index of binary A's sample in round `i`. -/
def aIndex (i : Nat) : Nat := if i % 2 = 0 then 2 * i else 2 * i + 1

/-- Global invocation index of binary B's sample in round `i`. -/
def bIndex (i : Nat) : Nat := if i % 2 = 0 then 2 * i + 1 else 2 * i

/-! ## Helper lemmas -/

theorem sortInts_sorted (l : List Int) : List.Sorted (· ≤ ·) (sortInts l) :=
  List.sorted_insertionSort _ l

theorem sortInts_perm (l : List Int) : List.Perm (sortInts l) l :=
  List.perm_insertionSort _ l

theorem sortInts_length (l : List Int) : (sortInts l).length = l.length :=
  (sortInts_perm l).length_eq

theorem sortInts_of_sorted {s : List Int} (hs : List.Sorted (· ≤ ·) s) :
    sortInts s = s :=
  hs.insertionSort_eq

theorem sorted_getD_mono {s : List Int} (hs : List.Sorted (· ≤ ·) s) {i j : Nat}
    (hij : i ≤ j) (hj : j < s.length) : s.getD i 0 ≤ s.getD j 0 := by
  have hi : i < s.length := lt_of_le_of_lt hij hj
  rw [List.getD_eq_getElem s 0 hi, List.getD_eq_getElem s 0 hj]
  have h := hs.rel_get_of_le (a := ⟨i, hi⟩) (b := ⟨j, hj⟩) hij
  simpa [List.get_eq_getElem] using h

theorem pyTrunc_eq_floor (q : ℚ) (hq : 0 ≤ q) : pyTrunc q = ⌊q⌋ := by
  rw [Rat.floor_def, pyTrunc]
  exact Int.tdiv_eq_ediv (Rat.num_nonneg.mpr hq) (by positivity)

theorem pyTrunc_nat_nine_tenths (n : ℕ) :
    pyTrunc ((n : ℚ) * (9/10)) = ((9 * n / 10 : ℕ) : ℤ) := by
  rw [pyTrunc_eq_floor _ (by positivity),
    show (n : ℚ) * (9/10) = ((9 * n : ℕ) : ℚ) / ((10 : ℕ) : ℚ) by push_cast; ring,
    Rat.floor_natCast_div_natCast]
  omega

theorem percentile_of_sorted {s : List Int} (hs : List.Sorted (· ≤ ·) s) (p : ℚ) :
    percentile s p =
      s.getD (max 0 (min ((s.length : Int) - 1)
        (pyTrunc ((s.length : ℚ) * p) - 1))).toNat 0 := by
  rw [percentile, sortInts_of_sorted hs]

theorem summarize_eq_some {l : List Int} {smry : Summary} (h : summarize l = some smry) :
    sortInts l ≠ [] ∧
      smry = ⟨(sortInts l).getD ((sortInts l).length / 2) 0,
              percentile (sortInts l) (9/10),
              (sortInts l).getD 0 0,
              (sortInts l).getD ((sortInts l).length - 1) 0,
              pymean (sortInts l)⟩ := by
  by_cases hE : (sortInts l).isEmpty
  · rw [summarize, if_pos hE] at h
    exact absurd h (by simp)
  · rw [summarize, if_neg hE] at h
    exact ⟨by simpa [List.isEmpty_iff] using hE, (Option.some.inj h).symm⟩

/-! ## Claims -/

/-- C5: `pct_delta(new, old)` equals `((new - old) / old) * 100` whenever
`old ≠ 0` (hence `pct_delta(x, x) = 0` for nonzero `x`), and for `old = 0` it
returns the "undefined" sentinel (`none`, modelling `math.nan`) instead of
raising or returning a number. -/
theorem claimC5 (x y : Int) :
    (y ≠ 0 → pct_delta x y = some ((((x : ℚ) - (y : ℚ)) / (y : ℚ)) * 100)) ∧
    pct_delta x 0 = none ∧
    (x ≠ 0 → pct_delta x x = some 0) := by
  refine ⟨fun hy => ?_, ?_, fun hx => ?_⟩
  · rw [pct_delta, if_neg hy]
  · rw [pct_delta, if_pos rfl]
  · rw [pct_delta, if_neg hx, sub_self, zero_div, zero_mul]

/-- C5 witness: the theorem instantiated at concrete inputs. -/
theorem claimC5_witness :
    pct_delta 5 2 = some (((((5 : Int) : ℚ) - ((2 : Int) : ℚ)) / ((2 : Int) : ℚ)) * 100) ∧
    pct_delta 3 0 = none ∧
    pct_delta 3 3 = some 0 :=
  ⟨(claimC5 5 2).1 (by decide), (claimC5 3 0).2.1, (claimC5 3 3).2.2 (by decide)⟩

/-- C7: a `--rounds` value below 2 makes `main` print the stderr message,
exit with status 2, and spawn no subprocess. -/
theorem claimC7 (r : Int) (hr : r < 2) (s : List Char)
    (collect : Bool → Int → Nat → Int) :
    (main r s collect).exit = 2 ∧ (main r s collect).spawned = [] ∧
    (main r s collect).errLines = [roundsErrLine] := by
  rw [main, if_pos hr]
  exact ⟨rfl, rfl, rfl⟩

/-- C7 witness: `--rounds 1` is rejected with exit code 2, the stderr
message, and an empty subprocess trace. -/
theorem claimC7_witness :
    (main 1 [] zeroCollector).exit = 2 ∧ (main 1 [] zeroCollector).spawned = [] ∧
    (main 1 [] zeroCollector).errLines = [roundsErrLine] :=
  claimC7 1 (by decide) [] zeroCollector

/-- C1 counterexample: on the length-2 series `[0, 10]` the code gives
`p50 = 10` (upper middle) but `p90 = 0` (clamped index 0), so the claimed
chain `min ≤ p50 ≤ p90 ≤ max` fails at `p50 ≤ p90`. -/
theorem claimC1_counterexample :
    summarize [0, 10] = some ⟨10, 0, 0, 10, 5⟩ ∧ ¬ ((10 : Int) ≤ 0) :=
  ⟨by with_unfolding_all rfl, by decide⟩

/-- C1 (amended): for every nonempty series, `min ≤ p50 ≤ max` and
`min ≤ p90 ≤ max`; the claimed `p50 ≤ p90` additionally holds whenever the
series length is not 2 (for length 2 the code's p90 index clamps below the
p50 index, see the counterexample). -/
theorem claimC1_amended (l : List Int) (smry : Summary) (h : summarize l = some smry) :
    smry.min ≤ smry.p50 ∧ smry.p50 ≤ smry.max ∧ smry.min ≤ smry.p90 ∧
      smry.p90 ≤ smry.max ∧ (l.length ≠ 2 → smry.p50 ≤ smry.p90) := by
  obtain ⟨hne, rfl⟩ := summarize_eq_some h
  have hs := sortInts_sorted l
  have hn : 0 < (sortInts l).length := List.length_pos.mpr hne
  set s := sortInts l with hsdef
  set n := s.length with hndef
  have hp90 : percentile s (9/10) =
      s.getD (max 0 (min ((n : Int) - 1) (((9 * n / 10 : ℕ) : ℤ) - 1))).toNat 0 := by
    rw [percentile_of_sorted hs, pyTrunc_nat_nine_tenths]
  refine ⟨?_, ?_, ?_, ?_, fun h2 => ?_⟩
  · show s.getD 0 0 ≤ s.getD (n / 2) 0
    exact sorted_getD_mono hs (Nat.zero_le _) (by omega)
  · show s.getD (n / 2) 0 ≤ s.getD (n - 1) 0
    exact sorted_getD_mono hs (by omega) (by omega)
  · show s.getD 0 0 ≤ percentile s (9/10)
    rw [hp90]
    exact sorted_getD_mono hs (Nat.zero_le _) (by omega)
  · show percentile s (9/10) ≤ s.getD (n - 1) 0
    rw [hp90]
    exact sorted_getD_mono hs (by omega) (by omega)
  · show s.getD (n / 2) 0 ≤ percentile s (9/10)
    rw [hp90]
    have hn2 : n ≠ 2 := by rw [hndef, hsdef, sortInts_length]; exact h2
    exact sorted_getD_mono hs (by omega) (by omega)

/-- C1 witness: the amended theorem instantiated at the series `[1, 3, 2]`
(summary `{p50 := 2, p90 := 2, min := 1, max := 3, mean := 2}`). -/
theorem claimC1_witness :
    (1 : Int) ≤ 2 ∧ (2 : Int) ≤ 3 ∧ (1 : Int) ≤ 2 ∧ (2 : Int) ≤ 3 ∧ (2 : Int) ≤ 2 := by
  have h := claimC1_amended [1, 3, 2] ⟨2, 2, 1, 3, 2⟩ (by with_unfolding_all rfl)
  exact ⟨h.1, h.2.1, h.2.2.1, h.2.2.2.1, h.2.2.2.2 (by decide)⟩

/-- C3: `summarize` takes p50 from sorted position `floor(n / 2)` and p90
from sorted position `clamp(floor(n * 0.90) - 1, 0, n - 1)` (the latter
stated by the spec-side definition `specP90Index`). -/
theorem claimC3 (l : List Int) (smry : Summary) (h : summarize l = some smry) :
    smry.p50 = (sortInts l).getD (l.length / 2) 0 ∧
    smry.p90 = (sortInts l).getD (specP90Index l.length) 0 := by
  obtain ⟨hne, rfl⟩ := summarize_eq_some h
  constructor
  · show (sortInts l).getD ((sortInts l).length / 2) 0 = _
    rw [sortInts_length]
  · show percentile (sortInts l) (9/10) = _
    rw [percentile_of_sorted (sortInts_sorted l), sortInts_length, specP90Index,
      pyTrunc_eq_floor _ (by positivity)]

/-- C3 witness: the theorem instantiated at the singleton series `[4]`. -/
theorem claimC3_witness :
    (4 : Int) = (sortInts [4]).getD (List.length ([4] : List Int) / 2) 0 ∧
    (4 : Int) = (sortInts [4]).getD (specP90Index (List.length ([4] : List Int))) 0 :=
  claimC3 [4] ⟨4, 4, 4, 4, 4⟩ (by with_unfolding_all rfl)

/-- C9: the mean field is the arithmetic mean truncated to an integer, and
`summarize [1,...,10]` is `{p50 := 6, p90 := 9, min := 1, max := 10,
mean := 5}` (5.5 truncated to 5). -/
theorem claimC9 (l : List Int) (smry : Summary) (h : summarize l = some smry) :
    smry.mean = pyTrunc ((l.sum : ℚ) / (l.length : ℚ)) ∧
    summarize [1, 2, 3, 4, 5, 6, 7, 8, 9, 10] = some ⟨6, 9, 1, 10, 5⟩ := by
  obtain ⟨hne, rfl⟩ := summarize_eq_some h
  constructor
  · show pymean (sortInts l) = _
    rw [pymean, (sortInts_perm l).sum_eq, sortInts_length]
  · with_unfolding_all rfl

/-- C9 witness: the theorem instantiated at the singleton series `[5]`. -/
theorem claimC9_witness :
    (5 : Int) = pyTrunc (((List.sum ([5] : List Int) : Int) : ℚ) / (List.length ([5] : List Int) : ℚ)) ∧
    summarize [1, 2, 3, 4, 5, 6, 7, 8, 9, 10] = some ⟨6, 9, 1, 10, 5⟩ :=
  claimC9 [5] ⟨5, 5, 5, 5, 5⟩ (by with_unfolding_all rfl)

/-! ## The `run_ab` loop in closed form -/

theorem callsList_succ (w : Int) (R : Nat) :
    callsList w (R + 1) = callsList w R ++ roundCalls w R := by
  rw [callsList, callsList, List.range_succ, List.flatMap_append]
  simp

theorem callsList_length (w : Int) (R : Nat) : (callsList w R).length = 2 * R := by
  induction R with
  | zero => rfl
  | succ n ih =>
    rw [callsList_succ, List.length_append, ih]
    simp [roundCalls]
    omega

theorem runABCore_succ (collect : Bool → Int → Nat → Int) (w : Int) (R : Nat) :
    runABCore collect w (R + 1) = runABStep collect w (runABCore collect w R) R := by
  rw [runABCore, runABCore, List.range_succ, List.foldl_append]
  rfl

theorem runABCore_closed (collect : Bool → Int → Nat → Int) (w : Int) (R : Nat) :
    runABCore collect w R =
      ⟨(List.range R).map (fun i => collect true w (aIndex i)),
       (List.range R).map (fun i => collect false w (bIndex i)),
       callsList w R⟩ := by
  induction R with
  | zero => rfl
  | succ n ih =>
    rw [runABCore_succ, ih, callsList_succ, runABStep]
    by_cases h : n % 2 = 0
    · simp only [if_pos h, List.range_succ, List.map_append, List.map_cons,
        List.map_nil, callsList_length, roundCalls, roundFirst, roundSecond,
        aIndex, bIndex]
    · simp only [if_neg h, List.range_succ, List.map_append, List.map_cons,
        List.map_nil, callsList_length, roundCalls, roundFirst, roundSecond,
        aIndex, bIndex]

theorem callsList_getElem (w : Int) {R i : Nat} (hi : i < R) :
    (callsList w R)[2 * i]? = some (roundFirst w i) ∧
    (callsList w R)[2 * i + 1]? = some (roundSecond w i) := by
  induction R with
  | zero => omega
  | succ n ih =>
    rw [callsList_succ]
    rcases Nat.lt_succ_iff_lt_or_eq.mp hi with h | rfl
    · have h1 : 2 * i < (callsList w n).length := by rw [callsList_length]; omega
      have h2 : 2 * i + 1 < (callsList w n).length := by rw [callsList_length]; omega
      rw [List.getElem?_append, if_pos h1, List.getElem?_append, if_pos h2]
      exact ih h
    · have h1 : (callsList w i).length ≤ 2 * i := by rw [callsList_length]
      have h2 : (callsList w i).length ≤ 2 * i + 1 := by rw [callsList_length]; omega
      rw [List.getElem?_append_right h1, List.getElem?_append_right h2,
        callsList_length]
      constructor
      · rw [show 2 * i - 2 * i = 0 by omega]; rfl
      · rw [show 2 * i + 1 - 2 * i = 1 by omega]; rfl

/-- C4: within each round the two collectors run in strict alternation:
the trace entry at position `2*i` (the binary invoked first in round `i`)
is A (`true`) when `i` is even and B (`false`) when `i` is odd, and the
entry at `2*i + 1` is the other binary. -/
theorem claimC4 (collect : Bool → Int → Nat → Int) (w : Int) (R : Nat)
    (h2 : 2 ≤ R) (i : Nat) (hi : i < R) :
    (run_ab collect w R).calls[2 * i]? =
      some (if i % 2 = 0 then (true, w) else (false, w)) ∧
    (run_ab collect w R).calls[2 * i + 1]? =
      some (if i % 2 = 0 then (false, w) else (true, w)) := by
  have hc : (run_ab collect w R).calls = callsList w R := by
    rw [run_ab, runABCore_closed]
  rw [hc]
  simpa [roundFirst, roundSecond] using callsList_getElem w hi

/-- C4 witness: with a constant collector, two rounds and worker count 7,
round 1 (odd) invokes B first and A second. -/
theorem claimC4_witness :
    (run_ab zeroCollector 7 2).calls[2]? = some (false, 7) ∧
    (run_ab zeroCollector 7 2).calls[3]? = some (true, 7) :=
  claimC4 zeroCollector 7 2 (by decide) 1 (by decide)

/-- C6: for every round count `R ≥ 2` and any total pair of collectors, the
loop of `run_ab` produces exactly two sample series, each of length `R`. -/
theorem claimC6 (collect : Bool → Int → Nat → Int) (w : Int) (R : Nat)
    (h2 : 2 ≤ R) :
    (runABCore collect w R).valsA.length = R ∧
    (runABCore collect w R).valsB.length = R := by
  rw [runABCore_closed]
  simp

/-- C6 witness: the theorem instantiated with the constant collector,
worker count 0 and `R = 2`. -/
theorem claimC6_witness :
    (runABCore zeroCollector 0 2).valsA.length = 2 ∧
    (runABCore zeroCollector 0 2).valsB.length = 2 :=
  claimC6 zeroCollector 0 2 (by decide)

/-! ## `parse_workers` lemmas -/

theorem pyStrip_eq_nil_iff (s : List Char) :
    pyStrip s = [] ↔ ∀ c ∈ s, c.isWhitespace := by
  rw [pyStrip, List.reverse_eq_nil_iff, List.dropWhile_eq_nil_iff]
  constructor
  · intro h c hc
    have hc2 : c ∈ s.takeWhile Char.isWhitespace ++ s.dropWhile Char.isWhitespace := by
      rw [List.takeWhile_append_dropWhile]; exact hc
    rcases List.mem_append.mp hc2 with h1 | h1
    · exact List.mem_takeWhile_imp h1
    · exact h c (List.mem_reverse.mpr h1)
  · intro h x hx
    exact h x ((List.dropWhile_sublist _).subset (List.mem_reverse.mp hx))

theorem splitComma_ne_nil (s : List Char) : splitComma s ≠ [] := by
  cases s with
  | nil => simp [splitComma]
  | cons c rest =>
    rw [splitComma]
    by_cases h : c = ','
    · simp [h]
    · rw [if_neg h]
      cases hq : splitComma rest <;> simp

theorem mem_splitComma_mem {s : List Char} {p : List Char} {c : Char}
    (hp : p ∈ splitComma s) (hc : c ∈ p) : c ∈ s := by
  induction s generalizing p with
  | nil =>
    simp [splitComma] at hp
    subst hp
    cases hc
  | cons d rest ih =>
    by_cases hd : d = ','
    · rw [splitComma, if_pos hd] at hp
      rcases List.mem_cons.mp hp with rfl | hp2
      · cases hc
      · exact List.mem_cons_of_mem _ (ih hp2 hc)
    · rcases hq : splitComma rest with _ | ⟨q, qs⟩
      · exact absurd hq (splitComma_ne_nil rest)
      · have hsp : splitComma (d :: rest) = (d :: q) :: qs := by
          rw [splitComma, if_neg hd, hq]
        rw [hsp] at hp
        rcases List.mem_cons.mp hp with rfl | hp2
        · rcases List.mem_cons.mp hc with rfl | hc2
          · exact List.mem_cons_self _ _
          · exact List.mem_cons_of_mem _ (ih (by rw [hq]; exact List.mem_cons_self q qs) hc2)
        · exact List.mem_cons_of_mem _ (ih (by rw [hq]; exact List.mem_cons_of_mem _ hp2) hc)

theorem parseWorkersAux_error_eq : ∀ (ps : List (List Char)) (e : Err),
    parseWorkersAux ps = .error e → e = Err.valueError := by
  intro ps
  induction ps with
  | nil =>
    intro e h
    simp [parseWorkersAux] at h
  | cons p rest ih =>
    intro e h
    rw [parseWorkersAux] at h
    by_cases hb : (pyStrip p).isEmpty
    · rw [if_pos hb] at h
      exact ih e h
    · rw [if_neg hb] at h
      cases hv : pyIntOfChars (pyStrip p) with
      | none =>
        rw [hv] at h
        simp only [Except.error.injEq] at h
        exact h.symm
      | some n =>
        rw [hv] at h
        cases hrest : parseWorkersAux rest with
        | error e2 =>
          rw [hrest] at h
          simp only [Except.error.injEq] at h
          exact h ▸ ih e2 hrest
        | ok l =>
          rw [hrest] at h
          cases h

theorem parseWorkersAux_ok_nil_iff (ps : List (List Char)) :
    parseWorkersAux ps = .ok [] ↔ ∀ p ∈ ps, pyStrip p = [] := by
  induction ps with
  | nil => simp [parseWorkersAux]
  | cons p rest ih =>
    rw [parseWorkersAux]
    by_cases hb : (pyStrip p).isEmpty
    · rw [if_pos hb, ih]
      simp [List.isEmpty_iff.mp hb]
    · rw [if_neg hb]
      have hpne : pyStrip p ≠ [] := fun hx => hb (by simp [hx])
      cases hv : pyIntOfChars (pyStrip p) with
      | none => simp [hpne]
      | some n =>
        cases hrest : parseWorkersAux rest with
        | error e => simp [hpne]
        | ok l => simp [hpne]

theorem parseWorkersAux_error_iff (ps : List (List Char)) :
    parseWorkersAux ps = .error Err.valueError ↔
      ∃ p ∈ ps, pyStrip p ≠ [] ∧ pyIntOfChars (pyStrip p) = none := by
  induction ps with
  | nil => simp [parseWorkersAux]
  | cons p rest ih =>
    rw [parseWorkersAux]
    by_cases hb : (pyStrip p).isEmpty
    · rw [if_pos hb, ih]
      have hp0 : pyStrip p = [] := List.isEmpty_iff.mp hb
      simp [hp0]
    · rw [if_neg hb]
      have hpne : pyStrip p ≠ [] := fun hx => hb (by simp [hx])
      cases hv : pyIntOfChars (pyStrip p) with
      | none =>
        constructor
        · intro _
          exact ⟨p, List.mem_cons_self _ _, hpne, hv⟩
        · intro _
          rfl
      | some n =>
        cases hrest : parseWorkersAux rest with
        | error e =>
          have he := parseWorkersAux_error_eq rest e hrest
          subst he
          constructor
          · intro _
            obtain ⟨q, hq, hqne, hqnone⟩ := ih.mp hrest
            exact ⟨q, List.mem_cons_of_mem _ hq, hqne, hqnone⟩
          · intro _
            rfl
        | ok l =>
          constructor
          · intro h
            cases h
          · intro h
            obtain ⟨q, hq, hqne, hqnone⟩ := h
            rcases List.mem_cons.mp hq with rfl | hq2
            · rw [hv] at hqnone
              cases hqnone
            · have hcontra := ih.mpr ⟨q, hq2, hqne, hqnone⟩
              rw [hrest] at hcontra
              cases hcontra

theorem parseWorkersAux_ok_val (ps : List (List Char)) (l : List Int)
    (h : parseWorkersAux ps = .ok l) : l = ps.filterMap pieceVal := by
  induction ps generalizing l with
  | nil =>
    simp [parseWorkersAux] at h
    simp [h.symm]
  | cons p rest ih =>
    rw [parseWorkersAux] at h
    by_cases hb : (pyStrip p).isEmpty
    · rw [if_pos hb] at h
      have hpv : pieceVal p = none := by rw [pieceVal, if_pos hb]
      rw [List.filterMap_cons, hpv]
      exact ih l h
    · rw [if_neg hb] at h
      cases hv : pyIntOfChars (pyStrip p) with
      | none => rw [hv] at h; cases h
      | some n =>
        rw [hv] at h
        cases hrest : parseWorkersAux rest with
        | error e => rw [hrest] at h; cases h
        | ok l2 =>
          rw [hrest] at h
          have hl : l = n :: l2 := (Except.ok.inj h).symm
          subst hl
          have hpv : pieceVal p = some n := by rw [pieceVal, if_neg hb, hv]
          rw [List.filterMap_cons, hpv, ih l2 hrest]

/-- C10: `parse_workers` skips blank pieces (`"1,,2,"` parses to `[1, 2]`),
and fails exactly when every comma-separated piece is blank after trimming
or some non-blank piece is not a valid integer literal. -/
theorem claimC10 (s : List Char) :
    (parse_workers s = .error Err.valueError ↔
      (∀ p ∈ splitComma s, pyStrip p = []) ∨
      (∃ p ∈ splitComma s, pyStrip p ≠ [] ∧ pyIntOfChars (pyStrip p) = none)) ∧
    parse_workers ("1,,2,".data) = .ok [1, 2] := by
  constructor
  · rw [parse_workers]
    cases haux : parseWorkersAux (splitComma s) with
    | error e =>
      have he := parseWorkersAux_error_eq _ e haux
      subst he
      constructor
      · intro _
        exact Or.inr ((parseWorkersAux_error_iff _).mp haux)
      · intro _
        rfl
    | ok l =>
      cases l with
      | nil =>
        constructor
        · intro _
          exact Or.inl ((parseWorkersAux_ok_nil_iff _).mp haux)
        · intro _
          rfl
      | cons x xs =>
        constructor
        · intro h
          cases h
        · intro h
          rcases h with hall | hex
          · have hcontra := (parseWorkersAux_ok_nil_iff _).mpr hall
            rw [haux] at hcontra
            simp at hcontra
          · have hcontra := (parseWorkersAux_error_iff _).mpr hex
            rw [haux] at hcontra
            cases hcontra
  · rfl

/-- C2 counterexample: `parse_workers` enforces neither positivity nor
distinctness: `"0"` parses to `[0]` (not positive) and `"0,0"` parses to
`[0, 0]` (not distinct). -/
theorem claimC2_counterexample :
    parse_workers ("0".data) = .ok [0] ∧ ¬ (0 < (0 : Int)) ∧
    parse_workers ("0,0".data) = .ok [0, 0] ∧ ¬ List.Nodup [(0 : Int), 0] :=
  ⟨rfl, by decide, rfl, by decide⟩

/-- C2 (amended): `parse_workers` returns the parsed integers of the
non-blank pieces in the order given (distinctness and positivity are not
enforced), and a `--workers` string that is empty after trimming is rejected
with a `ValueError` before any subprocess is spawned. -/
theorem claimC2_amended (s : List Char) :
    (∀ l, parse_workers s = .ok l → l = (splitComma s).filterMap pieceVal) ∧
    (pyStrip s = [] →
      parse_workers s = .error Err.valueError ∧
      ∀ (r : Int) (collect : Bool → Int → Nat → Int),
        (main r s collect).spawned = []) := by
  constructor
  · intro l hl
    rw [parse_workers] at hl
    cases haux : parseWorkersAux (splitComma s) with
    | error e =>
      rw [haux] at hl
      cases hl
    | ok l2 =>
      rw [haux] at hl
      cases l2 with
      | nil => cases hl
      | cons x xs =>
        have hx : l = x :: xs := (Except.ok.inj hl).symm
        subst hx
        exact parseWorkersAux_ok_val _ _ haux
  · intro hstrip
    have hws : ∀ c ∈ s, c.isWhitespace := (pyStrip_eq_nil_iff s).mp hstrip
    have hall : ∀ p ∈ splitComma s, pyStrip p = [] := by
      intro p hp
      exact (pyStrip_eq_nil_iff p).mpr (fun c hc => hws c (mem_splitComma_mem hp hc))
    have herr : parse_workers s = .error Err.valueError := by
      rw [parse_workers, (parseWorkersAux_ok_nil_iff _).mpr hall]
    refine ⟨herr, fun r collect => ?_⟩
    rw [main]
    by_cases hr : r < 2
    · rw [if_pos hr]
    · rw [if_neg hr, herr]

/-- C2 witness: the amended theorem instantiated at `"3"` (order of parsed
values) and at the all-blank string `" "` (rejection before spawning). -/
theorem claimC2_witness :
    ([(3 : Int)] = (splitComma ("3".data)).filterMap pieceVal) ∧
    parse_workers (" ".data) = .error Err.valueError ∧
    (main 5 (" ".data) zeroCollector).spawned = [] := by
  have h1 := (claimC2_amended ("3".data)).1 [3] (by rfl)
  have h2 := (claimC2_amended (" ".data)).2 (by rfl)
  exact ⟨h1, h2.1, h2.2 5 zeroCollector⟩

/-! ## `run_once` lemmas -/

theorem searchMedian_none_iff (l : List Char) :
    searchMedian l = none ↔ ∀ s, s <:+ l → matchMedianAt s = none := by
  induction l with
  | nil =>
    rw [searchMedian]
    cases hm : matchMedianAt [] with
    | some k =>
      constructor
      · intro h
        cases h
      · intro h
        have hx := h [] (List.suffix_refl [])
        rw [hm] at hx
        cases hx
    | none =>
      constructor
      · intro _ s hs
        have hseq := List.suffix_nil.mp hs
        subst hseq
        exact hm
      · intro _
        rfl
  | cons c rest ih =>
    rw [searchMedian]
    cases hm : matchMedianAt (c :: rest) with
    | some k =>
      constructor
      · intro h
        cases h
      · intro h
        have hx := h (c :: rest) (List.suffix_refl _)
        rw [hm] at hx
        cases hx
    | none =>
      rw [ih]
      constructor
      · intro h s hs
        rcases List.suffix_cons_iff.mp hs with rfl | hs2
        · exact hm
        · exact h s hs2
      · intro h s hs
        exact h s (hs.trans (List.suffix_cons c rest))

theorem searchMedian_some : ∀ (l : List Char) (k : Nat), searchMedian l = some k →
    ∃ s, s <:+ l ∧ matchMedianAt s = some k ∧
      ∀ t, t <:+ l → s.length < t.length → matchMedianAt t = none := by
  intro l
  induction l with
  | nil =>
    intro k h
    rw [searchMedian] at h
    cases hm : matchMedianAt [] with
    | some k2 =>
      rw [hm] at h
      have hk : k2 = k := Option.some.inj h
      subst hk
      refine ⟨[], List.suffix_refl _, hm, ?_⟩
      intro t ht hlen
      have hteq := List.suffix_nil.mp ht
      subst hteq
      simp at hlen
    | none =>
      rw [hm] at h
      cases h
  | cons c rest ih =>
    intro k h
    rw [searchMedian] at h
    cases hm : matchMedianAt (c :: rest) with
    | some k2 =>
      rw [hm] at h
      have hk : k2 = k := Option.some.inj h
      subst hk
      refine ⟨c :: rest, List.suffix_refl _, hm, ?_⟩
      intro t ht hlen
      have hle := ht.length_le
      omega
    | none =>
      rw [hm] at h
      obtain ⟨s, hs, hms, hmin⟩ := ih k h
      refine ⟨s, hs.trans (List.suffix_cons c rest), hms, ?_⟩
      intro t ht hlen
      rcases List.suffix_cons_iff.mp ht with rfl | ht2
      · exact hm
      · exact hmin t ht2 hlen

/-- C8: `run_once` returns the integer of the first (leftmost) occurrence of
the `median: <int> ops/sec` pattern in the captured output — the returned
sample is always non-negative, and longer suffixes (earlier start positions)
than the matched one do not match — and when no position matches it fails
with the `RuntimeError`, producing no sample at all. -/
theorem claimC8 (out : List Char) :
    (∀ k, run_once out = .ok k → 0 ≤ k) ∧
    (run_once out = .error Err.runtimeError ↔
      ∀ s, s <:+ out → matchMedianAt s = none) ∧
    (∀ k, run_once out = .ok k →
      ∃ s, s <:+ out ∧ matchMedianAt s = some k.toNat ∧
        ∀ t, t <:+ out → s.length < t.length → matchMedianAt t = none) := by
  refine ⟨?_, ?_, ?_⟩
  · intro k hk
    rw [run_once] at hk
    cases hm : searchMedian out with
    | some m =>
      rw [hm] at hk
      have hkm : ((m : Nat) : Int) = k := Except.ok.inj hk
      omega
    | none =>
      rw [hm] at hk
      cases hk
  · rw [run_once]
    cases hm : searchMedian out with
    | some m =>
      constructor
      · intro h
        cases h
      · intro h
        have hx := (searchMedian_none_iff out).mpr h
        rw [hm] at hx
        cases hx
    | none =>
      constructor
      · intro _
        exact (searchMedian_none_iff out).mp hm
      · intro _
        rfl
  · intro k hk
    rw [run_once] at hk
    cases hm : searchMedian out with
    | some m =>
      rw [hm] at hk
      have hkm : ((m : Nat) : Int) = k := Except.ok.inj hk
      have htn : k.toNat = m := by omega
      rw [htn]
      exact searchMedian_some out m hm
    | none =>
      rw [hm] at hk
      cases hk

/-- C8 witness: on the output `median: 7 ops/sec` the parser extracts the
non-negative sample 7. -/
theorem claimC8_witness :
    run_once ("median: 7 ops/sec".data) = .ok 7 ∧ (0 : Int) ≤ 7 :=
  ⟨by rfl, (claimC8 ("median: 7 ops/sec".data)).1 7 (by rfl)⟩

end BufferedAB
